import Mathlib

/-!
# Tailor: reference builder and `map` driver

A shallow embedding of `src/tailer.hpp` (`buildBWT2`, `checkIndexIntact`,
`loadBWT2`, `searchBWT_tail2`, `tailing2`) and of `src/tailor_map.hpp`
(`tailor_map::main`), followed by the properties proved about them.

Conventions.
* The string `seq` that `buildBWT2` edits byte by byte is a `List Char`; the
  byte `'\0'` that `resize` writes is `Char.ofNat 0`.  Names, paths and output
  text are values of `String`.
* An iterator is its offset from `begin ()`.  Dereferencing an iterator that
  lies outside the string, and calling `back ()` on an empty string, is
  undefined behaviour; a computation that would do so yields `none`.
* `INTTYPE` is declared outside the two source files.  It is taken as an
  unsigned type whose width in bits is the parameter `w`: a value stored in it,
  and a sum computed in it, is reduced modulo `2 ^ w`.
-/

set_option autoImplicit false

namespace Tailor

/-! ## `buildBWT2` (tailer.hpp, lines 24-87) -/

/-- The part of a `Fasta<std::vector>` object that `buildBWT2` queries:
`getName ()`, `getLengthNoN ()` and `getSeqNoN ()`. -/
structure Fasta where
  getName : String
  getLengthNoN : Nat
  getSeqNoN : List Char
  deriving Repr, DecidableEq

/-- One line `<name> '\t' <number> '\n'` of the `chrStart` or `chrLen` file. -/
structure TabLine where
  name : String
  value : Nat
  deriving Repr, DecidableEq

/-- The text of a line as the stream insertions of lines 42 and 46 produce it. -/
def TabLine.text (l : TabLine) : String :=
  l.name ++ "\t" ++ toString l.value ++ "\n"

/-- The variables the reading loop of `buildBWT2` updates. -/
structure ReadState where
  chrStartPos : List TabLine
  chrLen : List TabLine
  accumulatedLength : Nat
  seq : List Char
  deriving Repr, DecidableEq

/-- State at line 38: both files empty, `accumulatedLength {0}`, `seq` empty. -/
def ReadState.init : ReadState :=
  { chrStartPos := [], chrLen := [], accumulatedLength := 0, seq := [] }

/-- One pass through the body of `while (in.good ())`, lines 40-51, for the
entry `fa` that the pass constructs. -/
def readStep (w : Nat) (st : ReadState) (fa : Fasta) : ReadState :=
  let chrStartPos := st.chrStartPos ++ [⟨fa.getName, st.accumulatedLength⟩]
  let tempLen := fa.getLengthNoN % 2 ^ w
  let chrLen := st.chrLen ++ [⟨fa.getName, tempLen⟩]
  let accumulatedLength := (st.accumulatedLength + tempLen) % 2 ^ w
  { chrStartPos := chrStartPos
    chrLen := chrLen
    accumulatedLength := accumulatedLength
    seq := st.seq ++ fa.getSeqNoN }

/-- The loop of lines 39-52 run over the entries it constructs, in order. -/
def readLoop (w : Nat) (st : ReadState) : List Fasta → ReadState
  | [] => st
  | fa :: rest => readLoop w (readStep w st fa) rest

/-- The `switch (*iter2)` of lines 62-71: the byte assigned to `*iter`, or
`none` when no `case` matches and nothing is assigned. -/
def rcCase (c : Char) : Option Char :=
  if c = 'A' then some 'T'
  else if c = 'T' then some 'A'
  else if c = 'G' then some 'C'
  else if c = 'C' then some 'G'
  else none

/-- The assignment `*iter = c`: undefined when `iter` is not inside `seq`. -/
def store (seq : List Char) (iter : Nat) (c : Char) : Option (List Char) :=
  if iter < seq.length then some (seq.set iter c) else none

/-- The body of the `do` loop, lines 62-71: read `*iter2` and, when a `case`
matches, assign through `iter`. -/
def rcBody (seq : List Char) (iter iter2 : Nat) : Option (List Char) :=
  match seq[iter2]? with
  | none => none
  | some c =>
    match rcCase c with
    | some d => store seq iter d
    | none => some seq

/-- The `do ... while (iter2-- != seq.begin ())` loop of lines 61-73, entered
with `iter2` at a non-negative offset.  Each pass runs the body, advances
`iter`, and leaves the loop when `iter2` was at `begin ()`.  The result is the
string and the final offset of `iter`. -/
def rcLoopFrom : List Char → Nat → Nat → Option (List Char × Nat)
  | seq, iter, 0 =>
    match rcBody seq iter 0 with
    | none => none
    | some seq1 => some (seq1, iter + 1)
  | seq, iter, k + 1 =>
    match rcBody seq iter (k + 1) with
    | none => none
    | some seq1 => rcLoopFrom seq1 (iter + 1) k

/-- The loop of lines 61-73 for an arbitrary starting offset of `iter2`.  An
offset below `begin ()` makes the first `switch (*iter2)` read outside the
string. -/
def rcLoop (seq : List Char) (iter : Nat) (iter2 : Int) : Option (List Char × Nat) :=
  if iter2 < 0 then none else rcLoopFrom seq iter iter2.toNat

/-- The call `seq.resize (n)` for `n` at least the current size: the string is
extended with `'\0'` bytes. -/
def resize (seq : List Char) (n : Nat) : List Char :=
  seq.take n ++ List.replicate (n - seq.length) (Char.ofNat 0)

/-- Lines 56-74: resize `seq` to twice its size plus one, fill the second half
by the loop, and write the `'$'`. -/
def appendRC (seq : List Char) : Option (List Char) :=
  let seq1 := resize seq (seq.length * 2 + 1)
  let iter : Nat := (seq1.length - 1) / 2
  let iter2 : Int := (iter : Int) - 1
  match rcLoop seq1 iter iter2 with
  | none => none
  | some (seq2, iter3) => store seq2 iter3 '$'

/-- What `buildBWT2` has produced when it reaches line 75: the two text files
and the string `seq` handed to the index constructor (`none` when lines 56-74
have undefined behaviour). -/
structure BuildResult where
  chrStartPos : List TabLine
  chrLen : List TabLine
  seq : Option (List Char)
  deriving Repr, DecidableEq

/-- Lines 24-74 of `buildBWT2`, for the entries the reading loop constructs.
The N-position map and the index files written after line 74 are not part of
the model. -/
def buildBWT2 (w : Nat) (entries : List Fasta) : BuildResult :=
  let st := readLoop w ReadState.init entries
  { chrStartPos := st.chrStartPos, chrLen := st.chrLen, seq := appendRC st.seq }

/-- The forward block `F`: the N-stripped sequences of the entries, concatenated
in input order. -/
def forwardBlock (entries : List Fasta) : List Char :=
  (entries.map Fasta.getSeqNoN).flatten

/-- The bases: the four bytes the `switch` has a `case` for. -/
def IsBase (c : Char) : Prop := c = 'A' ∨ c = 'C' ∨ c = 'G' ∨ c = 'T'

instance (c : Char) : Decidable (IsBase c) := by unfold IsBase; infer_instance

/-- The byte found in the second half for the byte `c` of the first half: the
`case` value, or the `'\0'` left by `resize` when no `case` matches. -/
def rcFill (c : Char) : Char := (rcCase c).getD (Char.ofNat 0)

/-- Reverse complement as the loop computes it: the bytes in reverse order,
each through `rcFill`. -/
def revComp (P : List Char) : List Char := P.reverse.map rcFill

/-- The complement as the specification words it, stated without reference to
the `switch` of the code: A and T are exchanged, C and G are exchanged, and any
other byte is left as it is. -/
def specComplement (c : Char) : Char :=
  match c with
  | 'A' => 'T'
  | 'T' => 'A'
  | 'C' => 'G'
  | 'G' => 'C'
  | other => other

/-- The reverse complement as the specification words it: the complementary
bases of a sequence in reverse order. -/
def specReverseComplement (P : List Char) : List Char := P.reverse.map specComplement

/-- The pattern `P` occurs in `B` at position `i`. -/
def OccursAt (B P : List Char) (i : Nat) : Prop := (B.drop i).take P.length = P

instance (B P : List Char) (i : Nat) : Decidable (OccursAt B P i) := by
  unfold OccursAt; infer_instance

/-- The alphabet of the concatenated sequence: the four bases and `'$'`. -/
def InAlphabet (c : Char) : Prop := IsBase c ∨ c = '$'

instance (c : Char) : Decidable (InAlphabet c) := by unfold InAlphabet; infer_instance

/-- The sum of the `getLengthNoN ()` values of the entries. -/
def totalLengthNoN (entries : List Fasta) : Nat := (entries.map Fasta.getLengthNoN).sum

/-- The numbers written in a `chrStart` or `chrLen` file, line by line. -/
def values (lines : List TabLine) : List Nat := lines.map TabLine.value

/-- The names written in a `chrStart` or `chrLen` file, line by line. -/
def names (lines : List TabLine) : List String := lines.map TabLine.name

/-- The lines of `chrStart` in general: each entry's name with the running
total, kept modulo `2 ^ w`, of the lengths before it, starting from `acc`. -/
def wrapLines (w acc : Nat) : List Fasta → List TabLine
  | [] => []
  | fa :: rest =>
    ⟨fa.getName, acc⟩ :: wrapLines w ((acc + fa.getLengthNoN % 2 ^ w) % 2 ^ w) rest

/-- The lines of `chrStart` when no addition wraps: each entry's name with the
running total of the lengths before it, starting from `acc`. -/
def startLines (acc : Nat) : List Fasta → List TabLine
  | [] => []
  | fa :: rest => ⟨fa.getName, acc⟩ :: startLines (acc + fa.getLengthNoN) rest

/-! ## `checkIndexIntact`, `loadBWT2`, `searchBWT_tail2`, `tailing2`
(tailer.hpp, lines 89-139) and `tailor_map::main` (tailor_map.hpp)

File names, chromosome names and output text are values of `String`.  The
calling thread's run is recorded as a list of events in program order; what the
worker threads do after they are started is in `abwt_thread.hpp`, outside the
two source files, and is not part of the list. -/

/-- The part of a loaded `ABWT_table` that the two files use: `chr_length`, as
the sequence of (name, length) pairs its iteration yields. -/
structure ABWT_table where
  chr_length : List (String × Nat)
  deriving Repr, DecidableEq

/-- The surroundings of a run: which paths `boost::filesystem::exists` accepts,
which output files `std::ofstream` can create, the value of
`boost::thread::hardware_concurrency ()`, and the table that the six read calls
of `loadBWT2` produce for a prefix. -/
structure World where
  fileExists : String → Bool
  canCreate : String → Bool
  hardware_concurrency : Nat
  readIndex : String → ABWT_table

/-- An action of the calling thread. -/
inductive Event where
  | cerr (text : String)
  | openOutput (path : String)
  | write (text : String)
  | spawn (i : Nat)
  | join (i : Nat)
  | delete (i : Nat)
  | closeOutput
  deriving Repr, DecidableEq

/-- The function `checkIndexIntact`, lines 89-100. -/
def checkIndexIntact (env : World) (prefixName : String) : Bool :=
  if env.fileExists (prefixName ++ "t_bwt.bwt") &&
      env.fileExists (prefixName ++ "t_table.bwt") &&
      env.fileExists (prefixName ++ "t_seq.bwt") &&
      env.fileExists (prefixName ++ "NposLen.z") &&
      env.fileExists (prefixName ++ "chrStart") &&
      env.fileExists (prefixName ++ "chrLen") then
    true
  else
    false

/-- The statement of line 114 for one element of `chr_length`. -/
def sqLine (chrSizes : String × Nat) : String :=
  "@SQ\tSN:" ++ chrSizes.1 ++ "\tLN:" ++ toString chrSizes.2 ++ "\n"

/-- The function `loadBWT2`, lines 102-117: the table read for the prefix, and
one write per element of its `chr_length`. -/
def loadBWT2 (env : World) (prefixName : String) : ABWT_table × List Event :=
  let abwtt := env.readIndex prefixName
  (abwtt, abwtt.chr_length.map (fun chrSizes => Event.write (sqLine chrSizes)))

/-- The function `searchBWT_tail2`, lines 121-132: the first loop starts thread
`i` for `i = 0 .. nthreads - 1`, the second joins thread `i` (every thread it
created is joinable) and deletes it.  The loop counters are `int`s compared
with `nthreads`; the model counts in `Nat`. -/
def searchBWT_tail2 (_abwtt : ABWT_table) (_fileName : String) (nthreads : Nat)
    (_minLen : Int) (_allow_mismatch : Bool) : List Event :=
  (List.range nthreads).map Event.spawn
    ++ (List.range nthreads).flatMap (fun i => [Event.join i, Event.delete i])

/-- The text of the statement of line 137. -/
def hdLine : String := "@HD" ++ "\t" ++ "VN:1.0" ++ "\t" ++ "SO:unsorted\n"

/-- The function `tailing2`, lines 135-139: the header write, then the argument
`loadBWT2 (prefixName, out)` is evaluated, then `searchBWT_tail2` is called. -/
def tailing2 (env : World) (prefixName fastqName : String) (nthread : Nat)
    (minLen : Int) (allow_mismatch : Bool) : List Event :=
  let loaded := loadBWT2 env prefixName
  [Event.write hdLine] ++ loaded.2
    ++ searchBWT_tail2 loaded.1 fastqName nthread minLen allow_mismatch

/-- The option variables of `tailor_map::main` (lines 59-64) after the options
have been parsed and the checks of line 79 passed. -/
structure Options where
  inputFastq : String
  indexPrefix : String
  outputSAM : String
  allow_mm : Bool
  nthread : Nat
  minLen : Int
  deriving Repr, DecidableEq

/-- How a run of `tailor_map::main` ends: a call of `exit`, or undefined
behaviour.  The function is declared `int` and has no `return` statement, so a
run that reaches its closing brace ends undefined as well. -/
inductive Status where
  | exit (code : Nat)
  | undefined
  deriving Repr, DecidableEq

/-- A run of `tailor_map::main`: the events in order and the way it ends. -/
structure Run where
  events : List Event
  status : Status
  deriving Repr, DecidableEq

/-- Lines 92-94: `indexPrefix` gets a `'.'` appended unless its last byte is
one.  `back ()` of an empty string is undefined: `none`. -/
def normalizePrefix (indexPrefix : String) : Option String :=
  match indexPrefix.data.getLast? with
  | none => none
  | some c => if c ≠ '.' then some (indexPrefix.push '.') else some indexPrefix

/-- Lines 116-120: the thread count after the comparison with `nCore`. -/
def clampThreads (nCore nthread : Nat) : Nat :=
  if nCore ≠ 0 ∧ nthread > nCore then nCore else nthread

/-- The warning of line 118. -/
def clampWarning (nCore nthread : Nat) : String :=
  "Warning: the number of threads set (" ++ toString nthread
    ++ ") is larger than the number of cores available (" ++ toString nCore
    ++ ") in this machine.\nSo reset -n=" ++ toString nCore ++ "\n"

/-- Lines 95-128 of `tailor_map::main`, with `indexPrefix` as lines 92-94 left
it. -/
def mainFrom (env : World) (o : Options) (indexPrefix : String) : Run :=
  if !checkIndexIntact env indexPrefix then
    { events := [Event.cerr
        "Error: index files appear to be damaged. Please rebuild them.\nExiting...\n"]
      status := Status.exit 2 }
  else if !env.fileExists o.inputFastq then
    { events := [Event.cerr ("Error: Input fastq file " ++ o.inputFastq
        ++ " does not exist! Please double check.\nExiting...\n")]
      status := Status.exit 1 }
  else
    let toStdout : Bool := o.outputSAM == "stdout" || o.outputSAM == "-"
    if !toStdout && !env.canCreate o.outputSAM then
      { events := [Event.cerr ("Error: cannot create output file " ++ o.outputSAM
          ++ ".\nPlease double check.\nExiting...\n")]
        status := Status.exit 1 }
    else
      let opened := if toStdout then [] else [Event.openOutput o.outputSAM]
      let nCore := env.hardware_concurrency
      let warned :=
        if nCore ≠ 0 ∧ o.nthread > nCore then [Event.cerr (clampWarning nCore o.nthread)]
        else []
      let nthread := clampThreads nCore o.nthread
      let mapped := tailing2 env indexPrefix o.inputFastq nthread o.minLen o.allow_mm
      let closed := if toStdout then [] else [Event.closeOutput]
      { events := opened ++ warned ++ mapped ++ closed, status := Status.undefined }

end Tailor

namespace tailor_map

open Tailor

/-- The function `tailor_map::main` from line 91 on, for option values that
lines 58-89 parsed and accepted. -/
def main (env : World) (o : Options) : Run :=
  match normalizePrefix o.indexPrefix with
  | none => { events := [], status := Status.undefined }
  | some indexPrefix => mainFrom env o indexPrefix

end tailor_map

namespace Tailor

/-- The six files whose existence `checkIndexIntact` asks for. -/
def indexFiles (prefixName : String) : List String :=
  [prefixName ++ "t_bwt.bwt", prefixName ++ "t_table.bwt", prefixName ++ "t_seq.bwt",
   prefixName ++ "NposLen.z", prefixName ++ "chrStart", prefixName ++ "chrLen"]

/-- The threads started, in order. -/
def spawned (evs : List Event) : List Nat :=
  evs.filterMap (fun e => match e with | Event.spawn i => some i | _ => none)

/-- The threads joined, in order. -/
def joined (evs : List Event) : List Nat :=
  evs.filterMap (fun e => match e with | Event.join i => some i | _ => none)

/-- The threads deleted, in order. -/
def deleted (evs : List Event) : List Nat :=
  evs.filterMap (fun e => match e with | Event.delete i => some i | _ => none)

/-- The texts written to the output sink, in order. -/
def written (evs : List Event) : List String :=
  evs.filterMap (fun e => match e with | Event.write t => some t | _ => none)

/-- Whether an event starts a thread. -/
def Event.isSpawn : Event → Bool
  | Event.spawn _ => true
  | _ => false

/-- The events before the first thread is started. -/
def beforeSpawn (evs : List Event) : List Event :=
  evs.takeWhile (fun e => !e.isSpawn)

/-- The events from the first start of a thread on. -/
def fromSpawn (evs : List Event) : List Event :=
  evs.dropWhile (fun e => !e.isSpawn)

/-- A machine with `cores` hardware threads on which every path exists except
those listed in `missing`, every output file can be created, and loading any
index gives the chromosomes `chr1` (length 4) and `chr2` (length 2). -/
def sampleWorld (cores : Nat) (missing : List String) : World :=
  { fileExists := fun path => !missing.contains path
    canCreate := fun _ => true
    hardware_concurrency := cores
    readIndex := fun _ => { chr_length := [("chr1", 4), ("chr2", 2)] } }

/-- The options of `tailor map -i reads.fq -p genome -n <nthread>`. -/
def sampleOptions (nthread : Nat) : Options :=
  { inputFastq := "reads.fq"
    indexPrefix := "genome"
    outputSAM := "stdout"
    allow_mm := false
    nthread := nthread
    minLen := 18 }

/-! ## Proofs: `buildBWT2` -/

theorem rcBody_spec (G X Z : List Char) (c z : Char) :
    rcBody (G ++ [c] ++ X ++ z :: Z) (G.length + 1 + X.length) G.length
      = some (G ++ [c] ++ X ++ (rcCase c).getD z :: Z) := by
  have hread : (G ++ [c] ++ X ++ z :: Z)[G.length]? = some c := by
    rw [List.append_assoc, List.append_assoc, List.getElem?_append_right (Nat.le_refl _)]
    simp
  have hlen : G.length + 1 + X.length < (G ++ [c] ++ X ++ z :: Z).length := by
    simp; omega
  have hset : ∀ d, (G ++ [c] ++ X ++ z :: Z).set (G.length + 1 + X.length) d
      = G ++ [c] ++ X ++ d :: Z := by
    intro d
    have : G.length + 1 + X.length = (G ++ [c] ++ X).length := by
      simp only [List.length_append, List.length_singleton]
    rw [this, List.set_append_right _ _ (Nat.le_refl _)]
    simp
  unfold rcBody
  rw [hread]
  cases hc : rcCase c with
  | none => simp only [hc, Option.getD_none]
  | some d => simp only [hc, store, hlen, if_true, hset, Option.getD_some]

/-- The loop started at the last byte of `G` fills the first `G.length` bytes
after `G ++ X` with the images of `G` read backwards. -/
theorem rcLoopFrom_spec (z : Char) (k : Nat) :
    ∀ (G X : List Char) (m : Nat), G.length = k + 1 → k + 1 ≤ m →
      rcLoopFrom (G ++ X ++ List.replicate m z) (G.length + X.length) k
        = some (G ++ X ++ G.reverse.map (fun c => (rcCase c).getD z)
                  ++ List.replicate (m - (k + 1)) z,
                G.length + X.length + (k + 1)) := by
  induction k with
  | zero =>
    intro G X m hG hm
    obtain ⟨c, rfl⟩ : ∃ c, G = [c] := List.length_eq_one.mp hG
    obtain ⟨m1, rfl⟩ : ∃ m1, m = m1 + 1 := ⟨m - 1, by omega⟩
    have hb := rcBody_spec [] X (List.replicate m1 z) c z
    simp only [List.length_nil, List.nil_append, Nat.zero_add] at hb
    simp only [rcLoopFrom, List.replicate_succ, List.length_singleton, hb]
    simp
  | succ k ih =>
    intro G X m hG hm
    obtain ⟨G1, c, rfl⟩ : ∃ G1 c, G = G1 ++ [c] := by
      rcases List.eq_nil_or_concat G with h | ⟨G1, c, h⟩
      · subst h; simp at hG
      · exact ⟨G1, c, by simpa using h⟩
    have hG1 : G1.length = k + 1 := by simpa using hG
    obtain ⟨m1, rfl⟩ : ∃ m1, m = m1 + 1 := ⟨m - 1, by omega⟩
    have hb := rcBody_spec G1 X (List.replicate m1 z) c z
    have hiter : (G1 ++ [c]).length + X.length = G1.length + 1 + X.length := by simp
    have hk : k + 1 = G1.length := hG1.symm
    rw [rcLoopFrom, List.replicate_succ, hiter]
    rw [hk, hb]
    have hshape : G1 ++ [c] ++ X ++ (rcCase c).getD z :: List.replicate m1 z
        = G1 ++ ([c] ++ X ++ [(rcCase c).getD z]) ++ List.replicate m1 z := by simp
    have hiter2 : G1.length + 1 + X.length + 1
        = G1.length + ([c] ++ X ++ [(rcCase c).getD z]).length := by
      simp; omega
    show rcLoopFrom _ _ k = _
    rw [hshape, hiter2, ih G1 _ m1 hG1 (by omega)]
    have hm1 : m1 + 1 - (G1.length + 1) = m1 - (k + 1) := by omega
    rw [hm1]
    have hlen3 : G1.length + ([c] ++ X ++ [(rcCase c).getD z]).length + (k + 1)
        = G1.length + 1 + X.length + (G1.length + 1) := by
      simp only [List.length_append, List.length_singleton]; omega
    rw [hlen3]
    simp only [List.reverse_append, List.reverse_singleton, List.map_append, List.map_cons,
      List.map_nil, List.append_assoc, List.singleton_append, List.cons_append,
      List.nil_append]

/-- Closed form of lines 56-74 on a non-empty string: the string itself, then
its bytes in reverse order through `rcFill`, then `'$'`. -/
theorem appendRC_eq (F : List Char) (hF : F ≠ []) :
    appendRC F = some (F ++ F.reverse.map rcFill ++ ['$']) := by
  obtain ⟨k, hk⟩ : ∃ k, F.length = k + 1 :=
    ⟨F.length - 1, by have := List.length_pos.mpr hF; omega⟩
  have hres : resize F (F.length * 2 + 1) = F ++ [] ++ List.replicate (k + 2) (Char.ofNat 0) := by
    unfold resize
    rw [List.take_of_length_le (by omega)]
    simp only [List.append_nil]
    congr 2
    omega
  have hlen : (resize F (F.length * 2 + 1)).length = 2 * (k + 1) + 1 := by
    rw [hres]; simp; omega
  have hloop := rcLoopFrom_spec (Char.ofNat 0) k F [] (k + 2) hk (by omega)
  unfold appendRC
  simp only [hlen]
  have hiter : (2 * (k + 1) + 1 - 1) / 2 = k + 1 := by omega
  rw [hiter]
  have hi2 : ((k + 1 : Nat) : Int) - 1 = (k : Int) := by push_cast; ring
  unfold rcLoop
  rw [hi2]
  have hneg : ¬ ((k : Int) < 0) := by omega
  simp only [hneg, if_false, Int.toNat_ofNat]
  rw [hres]
  have hk2 : F.length + ([] : List Char).length = k + 1 := by simpa using hk
  rw [hk2] at hloop
  rw [hloop]
  have hrep : k + 2 - (k + 1) = 1 := by omega
  simp only [hrep, List.append_nil, List.replicate_one]
  unfold store
  have hpos : k + 1 + (k + 1)
      < (F ++ List.map (fun c => (rcCase c).getD (Char.ofNat 0)) F.reverse
          ++ [Char.ofNat 0]).length := by
    simp; omega
  rw [if_pos hpos]
  have hidx : k + 1 + (k + 1)
      = (F ++ List.map (fun c => (rcCase c).getD (Char.ofNat 0)) F.reverse).length := by
    simp; omega
  rw [hidx, List.set_append_right _ _ (Nat.le_refl _)]
  simp [rcFill]

theorem readLoop_seq (w : Nat) (entries : List Fasta) :
    ∀ st : ReadState, (readLoop w st entries).seq = st.seq ++ forwardBlock entries := by
  induction entries with
  | nil => intro st; simp [readLoop, forwardBlock]
  | cons fa rest ih =>
    intro st
    rw [readLoop, ih]
    simp [readStep, forwardBlock, List.append_assoc]

theorem buildBWT2_seq (w : Nat) (entries : List Fasta) :
    (buildBWT2 w entries).seq = appendRC (forwardBlock entries) := by
  simp [buildBWT2, readLoop_seq, ReadState.init]

theorem rcCase_of_isBase {c : Char} (h : IsBase c) : rcCase c = some (rcFill c) := by
  rcases h with h | h | h | h <;> subst h <;> decide

theorem rcFill_isBase {c : Char} (h : IsBase c) : IsBase (rcFill c) := by
  rcases h with h | h | h | h <;> subst h <;> decide

theorem rcFill_rcFill {c : Char} (h : IsBase c) : rcFill (rcFill c) = c := by
  rcases h with h | h | h | h <;> subst h <;> decide

theorem isBase_ne_dollar {c : Char} (h : IsBase c) : c ≠ '$' := by
  rcases h with h | h | h | h <;> subst h <;> decide

theorem revComp_isBase {P : List Char} (h : ∀ c ∈ P, IsBase c) :
    ∀ c ∈ revComp P, IsBase c := by
  intro c hc
  simp only [revComp, List.mem_map, List.mem_reverse] at hc
  obtain ⟨d, hd, rfl⟩ := hc
  exact rcFill_isBase (h d hd)

theorem revComp_append (P Q : List Char) : revComp (P ++ Q) = revComp Q ++ revComp P := by
  simp [revComp]

theorem revComp_length (P : List Char) : (revComp P).length = P.length := by
  simp [revComp]

theorem revComp_revComp {P : List Char} (h : ∀ c ∈ P, IsBase c) : revComp (revComp P) = P := by
  induction P with
  | nil => rfl
  | cons c P ih =>
    have hc : IsBase c := h c (List.mem_cons_self _ _)
    have hP : ∀ d ∈ P, IsBase d := fun d hd => h d (List.mem_cons_of_mem _ hd)
    have hcons : revComp (c :: P) = revComp P ++ [rcFill c] := by simp [revComp]
    rw [hcons, revComp_append, ih hP]
    simp [revComp, rcFill_rcFill hc]

theorem occursAt_of_split {B P L1 L2 : List Char} {i : Nat}
    (hB : B = L1 ++ P ++ L2) (hi : L1.length = i) : OccursAt B P i := by
  unfold OccursAt
  rw [hB, List.append_assoc, List.drop_left' hi, List.take_left' rfl]

theorem split_of_occursAt {B P : List Char} {i : Nat} (hi : i ≤ B.length)
    (h : OccursAt B P i) :
    ∃ L1 L2, B = L1 ++ P ++ L2 ∧ L1.length = i ∧ L2.length = B.length - i - P.length := by
  unfold OccursAt at h
  refine ⟨B.take i, (B.drop i).drop P.length, ?_, ?_, ?_⟩
  · have h1 : B.drop i = P ++ (B.drop i).drop P.length := by
      conv_lhs => rw [← List.take_append_drop P.length (B.drop i), h]
    rw [List.append_assoc, ← h1, List.take_append_drop]
  · simp [List.length_take, hi]
  · simp [List.length_drop]; omega

/-- In a string that is its own reverse complement, an occurrence of `P` at `i`
gives an occurrence of the reverse complement of `P` at the mirrored position. -/
theorem occursAt_mirror {B P : List Char} {i : Nat} (hB : revComp B = B)
    (hi : i ≤ B.length) (h : OccursAt B P i) :
    OccursAt B (revComp P) (B.length - i - P.length) := by
  obtain ⟨L1, L2, hsplit, _, h2⟩ := split_of_occursAt hi h
  have hB2 : B = revComp L2 ++ revComp P ++ revComp L1 := by
    conv_lhs => rw [← hB, hsplit]
    rw [revComp_append, revComp_append, List.append_assoc]
  exact occursAt_of_split hB2 (by rw [revComp_length, h2])

theorem revComp_block {F : List Char} (hbase : ∀ c ∈ F, IsBase c) :
    revComp (F ++ revComp F) = F ++ revComp F := by
  rw [revComp_append, revComp_revComp hbase]

/-- C1: for a non-empty forward block `F` over A, C, G, T the string `S` that
`buildBWT2` builds has length `2|F| + 1`, keeps `S[i] = F[i]` for `i < |F|`, has
at `|F| + i` the `switch` value of `F[|F| - 1 - i]` (the `switch` sends A to T,
T to A, C to G and G to C), and has `'$'` at `2|F|`. -/
theorem buildBWT2_layout (w : Nat) (entries : List Fasta)
    (hne : forwardBlock entries ≠ [])
    (hbase : ∀ c ∈ forwardBlock entries, IsBase c) :
    ∃ S, (buildBWT2 w entries).seq = some S
      ∧ S.length = 2 * (forwardBlock entries).length + 1
      ∧ (∀ i, i < (forwardBlock entries).length → S[i]? = (forwardBlock entries)[i]?)
      ∧ (∀ i, i < (forwardBlock entries).length →
          ∃ c, (forwardBlock entries)[(forwardBlock entries).length - 1 - i]? = some c
            ∧ S[(forwardBlock entries).length + i]? = rcCase c)
      ∧ S[2 * (forwardBlock entries).length]? = some '$'
      ∧ rcCase 'A' = some 'T' ∧ rcCase 'T' = some 'A'
      ∧ rcCase 'C' = some 'G' ∧ rcCase 'G' = some 'C' := by
  generalize hF : forwardBlock entries = F at hne hbase
  refine ⟨F ++ F.reverse.map rcFill ++ ['$'], ?_, ?_, ?_, ?_, ?_, rfl, rfl, rfl, rfl⟩
  · rw [buildBWT2_seq, hF, appendRC_eq F hne]
  · simp; omega
  · intro i hi
    rw [List.append_assoc, List.getElem?_append_left hi]
  · intro i hi
    have hin : F.length - 1 - i < F.length := by omega
    have hget : F[F.length - 1 - i]? = some F[F.length - 1 - i] :=
      List.getElem?_eq_getElem hin
    refine ⟨F[F.length - 1 - i], hget, ?_⟩
    have hlt : F.length + i < (F ++ F.reverse.map rcFill).length := by simp; omega
    rw [List.getElem?_append_left hlt, List.getElem?_append_right (by omega)]
    have hsub : F.length + i - F.length = i := by omega
    rw [hsub, List.getElem?_map, List.getElem?_reverse hi, hget]
    simp only [Option.map_some']
    exact (rcCase_of_isBase (hbase _ (List.getElem_mem _))).symm
  · have hidx : 2 * F.length = (F ++ F.reverse.map rcFill).length := by simp; omega
    rw [hidx, List.getElem?_append_right (Nat.le_refl _)]
    simp

/-- Witness for C1: the reference `>chr1 ACGT >chr2 TT`. -/
theorem buildBWT2_layout_witness :
    ∃ S, (buildBWT2 64 [⟨"chr1", 4, ['A', 'C', 'G', 'T']⟩, ⟨"chr2", 2, ['T', 'T']⟩]).seq = some S
      ∧ S.length = 2 * 6 + 1
      ∧ S[2 * 6]? = some '$' := by
  obtain ⟨S, h1, h2, _, _, h5, _⟩ :=
    buildBWT2_layout 64 [⟨"chr1", 4, ['A', 'C', 'G', 'T']⟩, ⟨"chr2", 2, ['T', 'T']⟩]
      (by decide) (by decide)
  exact ⟨S, h1, h2, h5⟩

/-- C2: on a reference whose forward block is empty (a single entry made of
Ns only), `buildBWT2` raises no error: it resizes `seq` to one byte, enters the
`do` loop with `iter2` one position before `begin ()`, and the first
`switch (*iter2)` reads outside the string. -/
theorem buildBWT2_empty_reference :
    forwardBlock [⟨"chr1", 0, []⟩] = []
      ∧ resize [] (0 * 2 + 1) = [Char.ofNat 0]
      ∧ rcLoop [Char.ofNat 0] 0 (-1) = none
      ∧ (buildBWT2 64 [⟨"chr1", 0, []⟩]).seq = none := by
  decide

/-- C5, counterexample: the forward block `AR` (the IUPAC code R is not N)
gives `S = A R \0 T $`, and the bytes `R` and `\0` are none of A, C, G, T, $. -/
theorem buildBWT2_alphabet_counterexample :
    forwardBlock [⟨"chr1", 2, ['A', 'R']⟩] ≠ []
      ∧ 'N' ∉ forwardBlock [⟨"chr1", 2, ['A', 'R']⟩]
      ∧ (buildBWT2 64 [⟨"chr1", 2, ['A', 'R']⟩]).seq
          = some ['A', 'R', Char.ofNat 0, 'T', '$']
      ∧ ¬ (∀ c ∈ ['A', 'R', Char.ofNat 0, 'T', '$'], InAlphabet c) := by
  decide

/-- C5, amended: for a non-empty forward block `F` over A, C, G, T every byte
of the string `S` that `buildBWT2` builds is one of A, C, G, T, $, and `'$'`
occurs exactly once in `S`, as its last byte. -/
theorem buildBWT2_alphabet (w : Nat) (entries : List Fasta)
    (hne : forwardBlock entries ≠ [])
    (hbase : ∀ c ∈ forwardBlock entries, IsBase c) :
    ∃ S, (buildBWT2 w entries).seq = some S
      ∧ (∀ c ∈ S, InAlphabet c)
      ∧ S.count '$' = 1
      ∧ S.getLast? = some '$' := by
  generalize hF : forwardBlock entries = F at hne hbase
  have hrc : ∀ c ∈ F.reverse.map rcFill, IsBase c := revComp_isBase hbase
  refine ⟨F ++ F.reverse.map rcFill ++ ['$'], ?_, ?_, ?_, ?_⟩
  · rw [buildBWT2_seq, hF, appendRC_eq F hne]
  · intro c hc
    rw [List.mem_append, List.mem_append] at hc
    rcases hc with (hc | hc) | hc
    · exact Or.inl (hbase c hc)
    · exact Or.inl (hrc c hc)
    · exact Or.inr (by simpa using hc)
  · have h1 : F.count '$' = 0 :=
      List.count_eq_zero.mpr (fun hm => isBase_ne_dollar (hbase _ hm) rfl)
    have h2 : (F.reverse.map rcFill).count '$' = 0 :=
      List.count_eq_zero.mpr (fun hm => isBase_ne_dollar (hrc _ hm) rfl)
    rw [List.count_append, List.count_append, h1, h2]
    rfl
  · exact List.getLast?_concat _

/-- Witness for C5: the reference `>chr1 ACGT`. -/
theorem buildBWT2_alphabet_witness :
    ∃ S, (buildBWT2 64 [⟨"chr1", 4, ['A', 'C', 'G', 'T']⟩]).seq = some S
      ∧ (∀ c ∈ S, InAlphabet c)
      ∧ S.count '$' = 1
      ∧ S.getLast? = some '$' :=
  buildBWT2_alphabet 64 [⟨"chr1", 4, ['A', 'C', 'G', 'T']⟩] (by decide) (by decide)

theorem rcFill_eq_specComplement {c : Char} (h : IsBase c) : rcFill c = specComplement c := by
  rcases h with h | h | h | h <;> subst h <;> decide

theorem revComp_eq_spec {P : List Char} (h : ∀ c ∈ P, IsBase c) :
    revComp P = specReverseComplement P := by
  unfold revComp specReverseComplement
  apply List.map_congr_left
  intro c hc
  exact rcFill_eq_specComplement (h c (List.mem_reverse.mp hc))

/-- C10: for a non-empty forward block `F` over A, C, G, T the block `B` (the
string `S` that `buildBWT2` builds, without its final `'$'`) is `F` followed by
the reverse complement of `F`, with the complement that exchanges A with T and
C with G; `B` is its own reverse complement; and for every pattern `P` over
A, C, G, T and every `i` with `i + |P| ≤ 2|F|`, `P` occurs in `B` at `i` if and
only if the reverse complement of `P` occurs in `B` at `2|F| - i - |P|`. -/
theorem buildBWT2_strand_mirror (w : Nat) (entries : List Fasta)
    (hne : forwardBlock entries ≠ [])
    (hbase : ∀ c ∈ forwardBlock entries, IsBase c) :
    ∃ S, (buildBWT2 w entries).seq = some S
      ∧ S.dropLast = forwardBlock entries ++ specReverseComplement (forwardBlock entries)
      ∧ specReverseComplement S.dropLast = S.dropLast
      ∧ ∀ P : List Char, (∀ c ∈ P, IsBase c) →
          ∀ i, i + P.length ≤ 2 * (forwardBlock entries).length →
            (OccursAt S.dropLast P i
              ↔ OccursAt S.dropLast (specReverseComplement P)
                  (2 * (forwardBlock entries).length - i - P.length)) := by
  generalize hF : forwardBlock entries = F at hne hbase
  have hdrop0 : (F ++ F.reverse.map rcFill ++ ['$']).dropLast = F ++ revComp F := by
    rw [List.dropLast_concat]; rfl
  have hFspec : revComp F = specReverseComplement F := revComp_eq_spec hbase
  have hBbase : ∀ c ∈ F ++ revComp F, IsBase c := by
    intro c hc
    rcases List.mem_append.mp hc with h | h
    · exact hbase c h
    · exact revComp_isBase hbase c h
  have hself : revComp (F ++ revComp F) = F ++ revComp F := revComp_block hbase
  have hlen : (F ++ revComp F).length = 2 * F.length := by
    rw [List.length_append, revComp_length]; omega
  have hdrop : (F ++ F.reverse.map rcFill ++ ['$']).dropLast
      = F ++ specReverseComplement F := by
    rw [hdrop0, hFspec]
  refine ⟨F ++ F.reverse.map rcFill ++ ['$'], ?_, hdrop, ?_, ?_⟩
  · rw [buildBWT2_seq, hF, appendRC_eq F hne]
  · rw [hdrop0, ← revComp_eq_spec hBbase, hself]
  · intro P hP i hi
    rw [hdrop0, ← revComp_eq_spec hP]
    constructor
    · intro h
      have := occursAt_mirror hself (by omega) h
      rwa [hlen] at this
    · intro h
      have hm := occursAt_mirror (i := 2 * F.length - i - P.length) hself (by omega) h
      rw [revComp_revComp hP, revComp_length, hlen] at hm
      have hidx : 2 * F.length - (2 * F.length - i - P.length) - P.length = i := by omega
      rwa [hidx] at hm

/-- Witness for C10: the reference `ACGG` gives `B = ACGG · CCGT`; the pattern
`AC` occurs at 0, so its reverse complement `GT` occurs at `8 - 0 - 2 = 6`. -/
theorem buildBWT2_strand_mirror_witness :
    ∃ S, (buildBWT2 64 [⟨"chr1", 4, ['A', 'C', 'G', 'G']⟩]).seq = some S
      ∧ S.dropLast = ['A', 'C', 'G', 'G', 'C', 'C', 'G', 'T']
      ∧ specReverseComplement ['A', 'C'] = ['G', 'T']
      ∧ OccursAt S.dropLast ['A', 'C'] 0
      ∧ OccursAt S.dropLast ['G', 'T'] 6 := by
  obtain ⟨S, h1, h2, _, h4⟩ :=
    buildBWT2_strand_mirror 64 [⟨"chr1", 4, ['A', 'C', 'G', 'G']⟩] (by decide) (by decide)
  have hB : S.dropLast = ['A', 'C', 'G', 'G', 'C', 'C', 'G', 'T'] := h2.trans (by decide)
  have hocc : OccursAt S.dropLast ['A', 'C'] 0 := by rw [hB]; decide
  have hmir := (h4 ['A', 'C'] (by decide) 0 (by decide)).mp hocc
  have hrc : specReverseComplement ['A', 'C'] = ['G', 'T'] := by decide
  have hpos : 2 * (forwardBlock [⟨"chr1", 4, ['A', 'C', 'G', 'G']⟩]).length - 0
      - ['A', 'C'].length = 6 := by decide
  rw [hrc, hpos] at hmir
  exact ⟨S, h1, hB, hrc, hocc, hmir⟩

theorem totalLengthNoN_cons (fa : Fasta) (rest : List Fasta) :
    totalLengthNoN (fa :: rest) = fa.getLengthNoN + totalLengthNoN rest := by
  simp [totalLengthNoN]

/-- When the lengths fit `INTTYPE`, no conversion and no addition in the reading
loop wraps. -/
theorem readLoop_fit (w : Nat) (entries : List Fasta) :
    ∀ st : ReadState, st.accumulatedLength + totalLengthNoN entries < 2 ^ w →
      (readLoop w st entries).chrStartPos
          = st.chrStartPos ++ startLines st.accumulatedLength entries
        ∧ (readLoop w st entries).chrLen
          = st.chrLen ++ entries.map (fun fa => ⟨fa.getName, fa.getLengthNoN⟩) := by
  induction entries with
  | nil => intro st _; simp [readLoop, startLines]
  | cons fa rest ih =>
    intro st hfit
    rw [totalLengthNoN_cons] at hfit
    have h1 : fa.getLengthNoN % 2 ^ w = fa.getLengthNoN := Nat.mod_eq_of_lt (by omega)
    have h2 : (st.accumulatedLength + fa.getLengthNoN) % 2 ^ w
        = st.accumulatedLength + fa.getLengthNoN := Nat.mod_eq_of_lt (by omega)
    have hstep : readStep w st fa =
        { chrStartPos := st.chrStartPos ++ [⟨fa.getName, st.accumulatedLength⟩]
          chrLen := st.chrLen ++ [⟨fa.getName, fa.getLengthNoN⟩]
          accumulatedLength := st.accumulatedLength + fa.getLengthNoN
          seq := st.seq ++ fa.getSeqNoN } := by
      simp only [readStep, h1, h2]
    obtain ⟨ih1, ih2⟩ := ih (readStep w st fa) (by rw [hstep]; simp only; omega)
    rw [readLoop, ih1, ih2, hstep]
    simp [startLines]

theorem startLines_names (entries : List Fasta) :
    ∀ acc, names (startLines acc entries) = entries.map Fasta.getName := by
  induction entries with
  | nil => intro acc; rfl
  | cons fa rest ih =>
    intro acc
    have := ih (acc + fa.getLengthNoN)
    simp only [names] at this
    simp [names, startLines, this]

theorem startLines_values (entries : List Fasta) :
    ∀ acc k, k < entries.length →
      (values (startLines acc entries))[k]?
        = some (acc + ((entries.map Fasta.getLengthNoN).take k).sum) := by
  induction entries with
  | nil => intro acc k hk; simp at hk
  | cons fa rest ih =>
    intro acc k hk
    cases k with
    | zero => simp [values, startLines]
    | succ k =>
      have hk2 : k < rest.length := by simpa using hk
      have := ih (acc + fa.getLengthNoN) k hk2
      simp only [values] at this
      simp only [values, startLines, List.map_cons, List.getElem?_cons_succ, this,
        List.take_succ_cons, List.sum_cons, Option.some.injEq]
      omega

theorem forwardBlock_length (entries : List Fasta)
    (h : ∀ fa ∈ entries, fa.getLengthNoN = fa.getSeqNoN.length) :
    (entries.map Fasta.getLengthNoN).sum = (forwardBlock entries).length := by
  induction entries with
  | nil => rfl
  | cons fa rest ih =>
    have h1 := h fa (List.mem_cons_self _ _)
    have h2 := ih (fun e he => h e (List.mem_cons_of_mem _ he))
    simp only [forwardBlock] at h2
    simp [forwardBlock, h1, h2]

theorem buildBWT2_files (w : Nat) (entries : List Fasta)
    (hfit : totalLengthNoN entries < 2 ^ w) :
    (buildBWT2 w entries).chrStartPos = startLines 0 entries
      ∧ (buildBWT2 w entries).chrLen
          = entries.map (fun fa => ⟨fa.getName, fa.getLengthNoN⟩) := by
  have h := readLoop_fit w entries ReadState.init (by simpa [ReadState.init] using hfit)
  simpa [buildBWT2, ReadState.init] using h

/-- The two files in general: names in input order, numbers modulo `2 ^ w`. -/
theorem readLoop_wrap (w : Nat) (entries : List Fasta) :
    ∀ st : ReadState,
      (readLoop w st entries).chrStartPos
          = st.chrStartPos ++ wrapLines w st.accumulatedLength entries
        ∧ (readLoop w st entries).chrLen
          = st.chrLen ++ entries.map (fun fa => ⟨fa.getName, fa.getLengthNoN % 2 ^ w⟩) := by
  induction entries with
  | nil => intro st; simp [readLoop, wrapLines]
  | cons fa rest ih =>
    intro st
    obtain ⟨ih1, ih2⟩ := ih (readStep w st fa)
    rw [readLoop, ih1, ih2]
    simp [readStep, wrapLines]

theorem wrapLines_names (w : Nat) (entries : List Fasta) :
    ∀ acc, names (wrapLines w acc entries) = entries.map Fasta.getName := by
  induction entries with
  | nil => intro acc; rfl
  | cons fa rest ih =>
    intro acc
    have := ih ((acc + fa.getLengthNoN % 2 ^ w) % 2 ^ w)
    simp only [names] at this
    simp only [names, wrapLines, List.map_cons, this]

theorem wrapLines_values (w : Nat) (entries : List Fasta) :
    ∀ acc k, acc < 2 ^ w → k < entries.length →
      (values (wrapLines w acc entries))[k]?
        = some ((acc + ((entries.map (fun fa => fa.getLengthNoN % 2 ^ w)).take k).sum)
            % 2 ^ w) := by
  induction entries with
  | nil => intro acc k _ hk; simp at hk
  | cons fa rest ih =>
    intro acc k hacc hk
    cases k with
    | zero => simp [values, wrapLines, Nat.mod_eq_of_lt hacc]
    | succ k =>
      have hk2 : k < rest.length := by simpa using hk
      have hpos : 0 < 2 ^ w := Nat.pow_pos (by decide)
      have := ih ((acc + fa.getLengthNoN % 2 ^ w) % 2 ^ w) k (Nat.mod_lt _ hpos) hk2
      simp only [values] at this
      simp only [values, wrapLines, List.map_cons, List.getElem?_cons_succ, this,
        List.take_succ_cons, List.sum_cons, Option.some.injEq]
      rw [Nat.mod_add_mod, Nat.add_assoc]

/-- C3: the `chrStart` and `chrLen` files hold one line per entry, named after
the entries in input order; the length written for an entry is its
`getLengthNoN ()` converted to `INTTYPE`, and the start offset written for the
`k`-th entry is the sum, in `INTTYPE`, of the lengths written for the entries
before it.  When the stripped lengths fit `INTTYPE` neither wraps: the length
written is `getLengthNoN ()`, the `k`-th start offset is the sum of the lengths
written for entries `0 .. k-1`, and, when each entry's `getLengthNoN ()` is the
length of its `getSeqNoN ()`, the lengths written add up to the length of the
forward block. -/
theorem buildBWT2_chr_tables (w : Nat) (entries : List Fasta) :
    names (buildBWT2 w entries).chrStartPos = entries.map Fasta.getName
      ∧ names (buildBWT2 w entries).chrLen = entries.map Fasta.getName
      ∧ values (buildBWT2 w entries).chrLen
          = entries.map (fun fa => fa.getLengthNoN % 2 ^ w)
      ∧ (∀ k, k < entries.length →
          (values (buildBWT2 w entries).chrStartPos)[k]?
            = some (((values (buildBWT2 w entries).chrLen).take k).sum % 2 ^ w))
      ∧ (totalLengthNoN entries < 2 ^ w →
          values (buildBWT2 w entries).chrLen = entries.map Fasta.getLengthNoN
          ∧ (∀ k, k < entries.length →
              (values (buildBWT2 w entries).chrStartPos)[k]?
                = some ((values (buildBWT2 w entries).chrLen).take k).sum)
          ∧ ((∀ fa ∈ entries, fa.getLengthNoN = fa.getSeqNoN.length) →
              (values (buildBWT2 w entries).chrLen).sum = (forwardBlock entries).length)) := by
  obtain ⟨ws, wl⟩ := readLoop_wrap w entries ReadState.init
  have hws : (buildBWT2 w entries).chrStartPos = wrapLines w 0 entries := by
    simpa [buildBWT2, ReadState.init] using ws
  have hwl : (buildBWT2 w entries).chrLen
      = entries.map (fun fa => ⟨fa.getName, fa.getLengthNoN % 2 ^ w⟩) := by
    simpa [buildBWT2, ReadState.init] using wl
  have hwv : values (buildBWT2 w entries).chrLen
      = entries.map (fun fa => fa.getLengthNoN % 2 ^ w) := by
    rw [hwl]; simp [values]
  refine ⟨?_, ?_, hwv, ?_, ?_⟩
  · rw [hws, wrapLines_names]
  · rw [hwl]; simp [names]
  · intro k hk
    rw [hws, hwv, wrapLines_values w entries 0 k (Nat.pow_pos (by decide)) hk, Nat.zero_add]
  · intro hfit
    obtain ⟨hs, hl⟩ := buildBWT2_files w entries hfit
    have hv : values (buildBWT2 w entries).chrLen = entries.map Fasta.getLengthNoN := by
      rw [hl]; simp [values]
    refine ⟨hv, ?_, ?_⟩
    · intro k hk
      rw [hs, hv, startLines_values entries 0 k hk, Nat.zero_add]
    · intro h
      rw [hv, forwardBlock_length entries h]

/-- Witness for C3: the reference `>chr1 ACGT >chr2 TT >chr3 GGG` with a 64-bit
`INTTYPE`; the third start offset is `4 + 2`. -/
theorem buildBWT2_chr_tables_witness :
    (buildBWT2 64 [⟨"chr1", 4, ['A', 'C', 'G', 'T']⟩, ⟨"chr2", 2, ['T', 'T']⟩,
        ⟨"chr3", 3, ['G', 'G', 'G']⟩]).chrStartPos
      = [⟨"chr1", 0⟩, ⟨"chr2", 4⟩, ⟨"chr3", 6⟩]
    ∧ (values (buildBWT2 64 [⟨"chr1", 4, ['A', 'C', 'G', 'T']⟩, ⟨"chr2", 2, ['T', 'T']⟩,
        ⟨"chr3", 3, ['G', 'G', 'G']⟩]).chrStartPos)[2]?
      = some ((values (buildBWT2 64 [⟨"chr1", 4, ['A', 'C', 'G', 'T']⟩,
          ⟨"chr2", 2, ['T', 'T']⟩, ⟨"chr3", 3, ['G', 'G', 'G']⟩]).chrLen).take 2).sum :=
  ⟨by decide,
   ((buildBWT2_chr_tables 64 [⟨"chr1", 4, ['A', 'C', 'G', 'T']⟩, ⟨"chr2", 2, ['T', 'T']⟩,
      ⟨"chr3", 3, ['G', 'G', 'G']⟩]).2.2.2.2 (by decide)).2.1 2 (by decide)⟩

theorem startLines_chain (entries : List Fasta) :
    ∀ acc lo, lo ≤ acc → List.Chain (· ≤ ·) lo (values (startLines acc entries)) := by
  induction entries with
  | nil => intro acc lo _; exact List.Chain.nil
  | cons fa rest ih =>
    intro acc lo h
    exact List.Chain.cons h (ih (acc + fa.getLengthNoN) acc (Nat.le_add_right _ _))

/-- C4, counterexample: a first entry made of Ns only has stripped length 0, so
the second entry starts at the same offset 0. -/
theorem buildBWT2_offsets_counterexample :
    2 ≤ [(⟨"chr1", 0, []⟩ : Fasta), ⟨"chr2", 4, ['A', 'C', 'G', 'T']⟩].length
      ∧ values (buildBWT2 64 [⟨"chr1", 0, []⟩, ⟨"chr2", 4, ['A', 'C', 'G', 'T']⟩]).chrStartPos
          = [0, 0]
      ∧ ¬ List.Chain' (· < ·)
          (values (buildBWT2 64 [⟨"chr1", 0, []⟩, ⟨"chr2", 4, ['A', 'C', 'G', 'T']⟩]).chrStartPos) := by
  have h : values (buildBWT2 64 [⟨"chr1", 0, []⟩, ⟨"chr2", 4, ['A', 'C', 'G', 'T']⟩]).chrStartPos
      = [0, 0] := by decide
  refine ⟨by decide, h, ?_⟩
  rw [h]
  simp

/-- C4, amended: when the stripped lengths fit `INTTYPE`, the start offsets, in
input order, form a non-decreasing sequence: each entry's start offset is the
start offset of the entry before it plus that entry's stripped length, hence
strictly greater exactly when that stripped length is not zero. -/
theorem buildBWT2_offsets (w : Nat) (entries : List Fasta)
    (hfit : totalLengthNoN entries < 2 ^ w) :
    List.Chain' (· ≤ ·) (values (buildBWT2 w entries).chrStartPos)
      ∧ ∀ k, k + 1 < entries.length →
          ∃ a b l, (values (buildBWT2 w entries).chrStartPos)[k]? = some a
            ∧ (values (buildBWT2 w entries).chrStartPos)[k + 1]? = some b
            ∧ (values (buildBWT2 w entries).chrLen)[k]? = some l
            ∧ b = a + l ∧ a ≤ b ∧ (a < b ↔ l ≠ 0) := by
  obtain ⟨hs, hl⟩ := buildBWT2_files w entries hfit
  have hv : values (buildBWT2 w entries).chrLen = entries.map Fasta.getLengthNoN := by
    rw [hl]; simp [values]
  constructor
  · rw [hs]
    cases entries with
    | nil => exact List.chain'_nil
    | cons fa rest =>
      exact startLines_chain rest (0 + fa.getLengthNoN) 0 (Nat.zero_le _)
  · intro k hk
    have hk0 : k < entries.length := by omega
    have hlen : (entries.map Fasta.getLengthNoN)[k]? = some (entries[k]).getLengthNoN := by
      rw [List.getElem?_map, List.getElem?_eq_getElem hk0]; rfl
    refine ⟨((entries.map Fasta.getLengthNoN).take k).sum,
      ((entries.map Fasta.getLengthNoN).take (k + 1)).sum, (entries[k]).getLengthNoN, ?_, ?_, ?_, ?_⟩
    · rw [hs, startLines_values entries 0 k hk0, Nat.zero_add]
    · rw [hs, startLines_values entries 0 (k + 1) hk, Nat.zero_add]
    · rw [hv, hlen]
    · have hsum : ((entries.map Fasta.getLengthNoN).take (k + 1)).sum
          = ((entries.map Fasta.getLengthNoN).take k).sum + (entries[k]).getLengthNoN := by
        rw [List.take_succ, hlen]
        simp
      rw [hsum]
      refine ⟨rfl, Nat.le_add_right _ _, ?_⟩
      omega

/-- Witness for C4: the reference `>chr1 ACGT >chr2 TT` with a 64-bit
`INTTYPE`. -/
theorem buildBWT2_offsets_witness :
    totalLengthNoN [⟨"chr1", 4, ['A', 'C', 'G', 'T']⟩, ⟨"chr2", 2, ['T', 'T']⟩] < 2 ^ 64
      ∧ List.Chain' (· ≤ ·)
          (values (buildBWT2 64 [⟨"chr1", 4, ['A', 'C', 'G', 'T']⟩,
            ⟨"chr2", 2, ['T', 'T']⟩]).chrStartPos) :=
  ⟨by decide,
   (buildBWT2_offsets 64 [⟨"chr1", 4, ['A', 'C', 'G', 'T']⟩, ⟨"chr2", 2, ['T', 'T']⟩]
      (by decide)).1⟩

/-! ## Proofs: the `map` driver -/

theorem spawned_cons (e : Event) (evs : List Event) :
    spawned (e :: evs)
      = (match e with | Event.spawn i => [i] | _ => []) ++ spawned evs := by
  cases e <;> simp [spawned]

theorem joined_cons (e : Event) (evs : List Event) :
    joined (e :: evs)
      = (match e with | Event.join i => [i] | _ => []) ++ joined evs := by
  cases e <;> simp [joined]

theorem deleted_cons (e : Event) (evs : List Event) :
    deleted (e :: evs)
      = (match e with | Event.delete i => [i] | _ => []) ++ deleted evs := by
  cases e <;> simp [deleted]

theorem written_cons (e : Event) (evs : List Event) :
    written (e :: evs)
      = (match e with | Event.write t => [t] | _ => []) ++ written evs := by
  cases e <;> simp [written]

theorem spawned_append (a b : List Event) : spawned (a ++ b) = spawned a ++ spawned b :=
  List.filterMap_append _ _ _

theorem joined_append (a b : List Event) : joined (a ++ b) = joined a ++ joined b :=
  List.filterMap_append _ _ _

theorem deleted_append (a b : List Event) : deleted (a ++ b) = deleted a ++ deleted b :=
  List.filterMap_append _ _ _

theorem written_append (a b : List Event) : written (a ++ b) = written a ++ written b :=
  List.filterMap_append _ _ _

/-- The first loop of `searchBWT_tail2` only starts threads. -/
theorem firstLoop_events (l : List Nat) :
    spawned (l.map Event.spawn) = l ∧ joined (l.map Event.spawn) = []
      ∧ deleted (l.map Event.spawn) = [] ∧ written (l.map Event.spawn) = [] := by
  induction l with
  | nil => exact ⟨rfl, rfl, rfl, rfl⟩
  | cons a l ih =>
    obtain ⟨h1, h2, h3, h4⟩ := ih
    simp [spawned_cons, joined_cons, deleted_cons, written_cons, h1, h2, h3, h4]

/-- The second loop of `searchBWT_tail2` only joins and deletes threads. -/
theorem secondLoop_events (l : List Nat) :
    spawned (l.flatMap (fun i => [Event.join i, Event.delete i])) = []
      ∧ joined (l.flatMap (fun i => [Event.join i, Event.delete i])) = l
      ∧ deleted (l.flatMap (fun i => [Event.join i, Event.delete i])) = l
      ∧ written (l.flatMap (fun i => [Event.join i, Event.delete i])) = [] := by
  induction l with
  | nil => exact ⟨rfl, rfl, rfl, rfl⟩
  | cons a l ih =>
    obtain ⟨h1, h2, h3, h4⟩ := ih
    simp [List.flatMap_cons, spawned_cons, joined_cons, deleted_cons, written_cons,
      h1, h2, h3, h4]

/-- The calling thread in `searchBWT_tail2` starts, joins and deletes the
threads `0 .. nthreads - 1`, each once, and writes nothing. -/
theorem searchBWT_tail2_events (abwtt : ABWT_table) (fileName : String) (nthreads : Nat)
    (minLen : Int) (mm : Bool) :
    spawned (searchBWT_tail2 abwtt fileName nthreads minLen mm) = List.range nthreads
      ∧ joined (searchBWT_tail2 abwtt fileName nthreads minLen mm) = List.range nthreads
      ∧ deleted (searchBWT_tail2 abwtt fileName nthreads minLen mm) = List.range nthreads
      ∧ written (searchBWT_tail2 abwtt fileName nthreads minLen mm) = [] := by
  obtain ⟨a1, a2, a3, a4⟩ := firstLoop_events (List.range nthreads)
  obtain ⟨b1, b2, b3, b4⟩ := secondLoop_events (List.range nthreads)
  simp only [searchBWT_tail2, spawned_append, joined_append, deleted_append, written_append,
    a1, a2, a3, a4, b1, b2, b3, b4, List.append_nil, List.nil_append, and_self]

/-- No thread is started before `searchBWT_tail2` starts thread 0. -/
theorem searchBWT_tail2_beforeSpawn (abwtt : ABWT_table) (fileName : String)
    (nthreads : Nat) (minLen : Int) (mm : Bool) :
    beforeSpawn (searchBWT_tail2 abwtt fileName nthreads minLen mm) = []
      ∧ fromSpawn (searchBWT_tail2 abwtt fileName nthreads minLen mm)
          = searchBWT_tail2 abwtt fileName nthreads minLen mm := by
  cases nthreads with
  | zero => exact ⟨rfl, rfl⟩
  | succ n =>
    simp [searchBWT_tail2, beforeSpawn, fromSpawn, List.range_succ_eq_map, Event.isSpawn]

theorem sqLine_ne_hdLine (chrSizes : String × Nat) : sqLine chrSizes ≠ hdLine := by
  intro h
  have := congrArg String.data h
  simp [sqLine, hdLine] at this

theorem written_header (chr : List (String × Nat)) :
    written (chr.map (fun c => Event.write (sqLine c))) = chr.map sqLine
      ∧ ∀ e ∈ [Event.write hdLine] ++ chr.map (fun c => Event.write (sqLine c)),
          (!e.isSpawn) = true := by
  constructor
  · induction chr with
    | nil => rfl
    | cons c chr ih => simp [written_cons, ih]
  · intro e he
    simp only [List.mem_append, List.mem_singleton, List.mem_map] at he
    rcases he with rfl | ⟨c, _, rfl⟩ <;> rfl

/-- C7: whatever index is loaded, the events of `tailing2` before the first
thread is started are the write of the line `@HD<TAB>VN:1.0<TAB>SO:unsorted`
followed by one write `@SQ<TAB>SN:<name><TAB>LN:<length>` per element of
`chr_length`, in its iteration order; the `@HD` line is written once in the
whole run, and from the first thread start on the calling thread writes
nothing, so every header line precedes whatever the workers write. -/
theorem tailing2_header (env : World) (prefixName fastqName : String) (nthread : Nat)
    (minLen : Int) (mm : Bool) :
    hdLine = "@HD\tVN:1.0\tSO:unsorted\n"
      ∧ (∀ (name : String) (len : Nat),
          sqLine (name, len) = "@SQ\tSN:" ++ name ++ "\tLN:" ++ toString len ++ "\n")
      ∧ beforeSpawn (tailing2 env prefixName fastqName nthread minLen mm)
          = Event.write hdLine
              :: (env.readIndex prefixName).chr_length.map (fun c => Event.write (sqLine c))
      ∧ written (beforeSpawn (tailing2 env prefixName fastqName nthread minLen mm))
          = hdLine :: (env.readIndex prefixName).chr_length.map sqLine
      ∧ (written (tailing2 env prefixName fastqName nthread minLen mm)).count hdLine = 1
      ∧ written (fromSpawn (tailing2 env prefixName fastqName nthread minLen mm)) = []
      ∧ spawned (fromSpawn (tailing2 env prefixName fastqName nthread minLen mm))
          = List.range nthread := by
  obtain ⟨hw, hns⟩ := written_header (env.readIndex prefixName).chr_length
  obtain ⟨hb, hf⟩ := searchBWT_tail2_beforeSpawn (env.readIndex prefixName) fastqName
    nthread minLen mm
  obtain ⟨hsp, _, _, hwr⟩ := searchBWT_tail2_events (env.readIndex prefixName) fastqName
    nthread minLen mm
  have hbefore : beforeSpawn (tailing2 env prefixName fastqName nthread minLen mm)
      = Event.write hdLine
          :: (env.readIndex prefixName).chr_length.map (fun c => Event.write (sqLine c)) := by
    unfold beforeSpawn at hb ⊢
    simp only [tailing2, loadBWT2]
    rw [List.takeWhile_append_of_pos hns, hb]
    simp
  have hfrom : fromSpawn (tailing2 env prefixName fastqName nthread minLen mm)
      = searchBWT_tail2 (env.readIndex prefixName) fastqName nthread minLen mm := by
    unfold fromSpawn at hf ⊢
    simp only [tailing2, loadBWT2]
    rw [List.dropWhile_append_of_pos hns, hf]
  refine ⟨by decide, fun _ _ => rfl, hbefore, ?_, ?_, ?_, ?_⟩
  · rw [hbefore, written_cons, hw]; rfl
  · have hall : written (tailing2 env prefixName fastqName nthread minLen mm)
        = hdLine :: (env.readIndex prefixName).chr_length.map sqLine := by
      simp only [tailing2, loadBWT2, written_append, hwr, hw, List.append_nil]
      rfl
    rw [hall, List.count_cons_self]
    have : ((env.readIndex prefixName).chr_length.map sqLine).count hdLine = 0 := by
      rw [List.count_eq_zero]
      intro hm
      obtain ⟨c, _, hc⟩ := List.mem_map.mp hm
      exact sqLine_ne_hdLine c hc
    rw [this]
  · rw [hfrom, hwr]
  · rw [hfrom, hsp]

theorem data_ne_nil {p : String} (hp : p ≠ "") : p.data ≠ [] := by
  intro h
  exact hp (String.ext (by simpa using h))

theorem checkIndexIntact_false_iff (env : World) (p : String) :
    checkIndexIntact env p = false ↔ ∃ f ∈ indexFiles p, env.fileExists f = false := by
  simp only [checkIndexIntact, indexFiles, List.mem_cons, List.mem_singleton,
    List.not_mem_nil, or_false, exists_eq_or_imp, exists_eq_left]
  cases env.fileExists (p ++ "t_bwt.bwt") <;> cases env.fileExists (p ++ "t_table.bwt") <;>
    cases env.fileExists (p ++ "t_seq.bwt") <;> cases env.fileExists (p ++ "NposLen.z") <;>
    cases env.fileExists (p ++ "chrStart") <;> cases env.fileExists (p ++ "chrLen") <;>
    simp

theorem main_eq_mainFrom {env : World} {o : Options} {p : String}
    (hp : normalizePrefix o.indexPrefix = some p) :
    tailor_map.main env o = mainFrom env o p := by
  simp [tailor_map.main, hp]

theorem mainFrom_status_ne_two (env : World) (o : Options) (p : String)
    (h : checkIndexIntact env p = true) : (mainFrom env o p).status ≠ Status.exit 2 := by
  unfold mainFrom
  simp only [h, Bool.not_true, Bool.false_eq_true, if_false]
  split
  · simp
  · split <;> simp

/-- C6: `tailor_map::main` exits with code 2 exactly when the call of
`checkIndexIntact` on the prefix `p` that lines 92-94 produce fails, which is
exactly when one of the six files `p`t_bwt.bwt, `p`t_table.bwt, `p`t_seq.bwt,
`p`NposLen.z, `p`chrStart, `p`chrLen does not exist, whether or not the input
FASTQ exists; it exits with code 1 when the six files exist and the input FASTQ
does not; and in both cases the run consists of the message on `std::cerr`
alone: no output file is opened and nothing is written to the output. -/
theorem main_exit_codes (env : World) (o : Options) :
    ((tailor_map.main env o).status = Status.exit 2
        ↔ ∃ p, normalizePrefix o.indexPrefix = some p ∧ checkIndexIntact env p = false)
      ∧ (∀ p, checkIndexIntact env p = false
          ↔ ∃ f ∈ indexFiles p, env.fileExists f = false)
      ∧ (∀ p, normalizePrefix o.indexPrefix = some p → checkIndexIntact env p = false →
          (tailor_map.main env o).events = [Event.cerr
            "Error: index files appear to be damaged. Please rebuild them.\nExiting...\n"])
      ∧ (∀ p, normalizePrefix o.indexPrefix = some p → checkIndexIntact env p = true →
          env.fileExists o.inputFastq = false →
          (tailor_map.main env o).status = Status.exit 1
            ∧ (tailor_map.main env o).events = [Event.cerr ("Error: Input fastq file "
                ++ o.inputFastq ++ " does not exist! Please double check.\nExiting...\n")]) := by
  refine ⟨?_, checkIndexIntact_false_iff env, ?_, ?_⟩
  · cases hn : normalizePrefix o.indexPrefix with
    | none => simp [tailor_map.main, hn]
    | some q =>
      rw [main_eq_mainFrom hn]
      constructor
      · intro h
        cases hc : checkIndexIntact env q with
        | false => exact ⟨q, rfl, hc⟩
        | true => exact absurd h (mainFrom_status_ne_two env o q hc)
      · rintro ⟨p, hp, hc⟩
        cases Option.some.inj hp
        simp [mainFrom, hc]
  · intro p hp h
    rw [main_eq_mainFrom hp]
    simp [mainFrom, h]
  · intro p hp h1 h2
    rw [main_eq_mainFrom hp]
    simp [mainFrom, h1, h2]

/-- Witness for C6: with `genome.chrLen` missing the run exits with code 2
although `reads.fq` is missing too; with only `reads.fq` missing it exits with
code 1. -/
theorem main_exit_codes_witness :
    (tailor_map.main (sampleWorld 4 ["genome.chrLen", "reads.fq"]) (sampleOptions 1)).status
        = Status.exit 2
      ∧ (tailor_map.main (sampleWorld 4 ["reads.fq"]) (sampleOptions 1)).status
        = Status.exit 1 :=
  ⟨(main_exit_codes (sampleWorld 4 ["genome.chrLen", "reads.fq"]) (sampleOptions 1)).1.mpr
      ⟨"genome.", by decide, by decide⟩,
   ((main_exit_codes (sampleWorld 4 ["reads.fq"]) (sampleOptions 1)).2.2.2 "genome."
      (by decide) (by decide) (by decide)).1⟩

theorem written_tailing2 (env : World) (prefixName fastqName : String) (nthread : Nat)
    (minLen : Int) (mm : Bool) :
    written (tailing2 env prefixName fastqName nthread minLen mm)
      = hdLine :: (env.readIndex prefixName).chr_length.map sqLine := by
  obtain ⟨hw, _⟩ := written_header (env.readIndex prefixName).chr_length
  obtain ⟨_, _, _, hwr⟩ := searchBWT_tail2_events (env.readIndex prefixName) fastqName
    nthread minLen mm
  simp only [tailing2, loadBWT2, written_append, hwr, hw, List.append_nil]
  rfl

/-- The events of a run that passes the three checks of lines 95-114. -/
theorem mainFrom_events (env : World) (o : Options) (p : String)
    (hidx : checkIndexIntact env p = true)
    (hfq : env.fileExists o.inputFastq = true)
    (hout : (o.outputSAM == "stdout" || o.outputSAM == "-") = true
      ∨ env.canCreate o.outputSAM = true) :
    (mainFrom env o p).events
      = (if (o.outputSAM == "stdout" || o.outputSAM == "-") = true then []
          else [Event.openOutput o.outputSAM])
        ++ (if env.hardware_concurrency ≠ 0 ∧ o.nthread > env.hardware_concurrency then
              [Event.cerr (clampWarning env.hardware_concurrency o.nthread)]
            else [])
        ++ tailing2 env p o.inputFastq (clampThreads env.hardware_concurrency o.nthread)
            o.minLen o.allow_mm
        ++ (if (o.outputSAM == "stdout" || o.outputSAM == "-") = true then []
            else [Event.closeOutput]) := by
  have hcond : (!(o.outputSAM == "stdout" || o.outputSAM == "-") && !env.canCreate o.outputSAM)
      = false := by
    rcases hout with h | h <;> simp [h]
  unfold mainFrom
  simp only [hidx, hfq, hcond, Bool.not_true, Bool.false_eq_true, if_false]

/-- C8: for a non-empty index prefix `p`, lines 92-94 leave `p` itself when its
last byte is `'.'` and `p` followed by one `'.'` otherwise; the last byte of the
result `q` is `'.'` and normalising it again changes nothing.  `q` is the prefix
`tailor_map::main` uses: the run exits with code 2 exactly when one of the six
files named `q`t_bwt.bwt, ..., `q`chrLen is missing, and a run that passes the
checks calls `tailing2` with `q`, so that the `@SQ` lines it writes are those of
the index loaded from `q`. -/
theorem normalizePrefix_spec (p : String) (hp : p ≠ "") :
    ∃ q, normalizePrefix p = some q
      ∧ (p.data.getLast? = some '.' → q = p)
      ∧ (p.data.getLast? ≠ some '.' → q = p ++ ".")
      ∧ q.data.getLast? = some '.'
      ∧ normalizePrefix q = some q
      ∧ ∀ (env : World) (o : Options), o.indexPrefix = p →
          ((tailor_map.main env o).status = Status.exit 2
              ↔ ∃ f ∈ indexFiles q, env.fileExists f = false)
          ∧ (checkIndexIntact env q = true → env.fileExists o.inputFastq = true →
              ((o.outputSAM == "stdout" || o.outputSAM == "-") = true
                ∨ env.canCreate o.outputSAM = true) →
              (∃ pre post, (tailor_map.main env o).events
                  = pre ++ tailing2 env q o.inputFastq
                      (clampThreads env.hardware_concurrency o.nthread) o.minLen o.allow_mm
                    ++ post)
              ∧ written (tailor_map.main env o).events
                  = hdLine :: (env.readIndex q).chr_length.map sqLine) := by
  have huse : ∀ q, normalizePrefix p = some q →
      ∀ (env : World) (o : Options), o.indexPrefix = p →
        ((tailor_map.main env o).status = Status.exit 2
            ↔ ∃ f ∈ indexFiles q, env.fileExists f = false)
        ∧ (checkIndexIntact env q = true → env.fileExists o.inputFastq = true →
            ((o.outputSAM == "stdout" || o.outputSAM == "-") = true
              ∨ env.canCreate o.outputSAM = true) →
            (∃ pre post, (tailor_map.main env o).events
                = pre ++ tailing2 env q o.inputFastq
                    (clampThreads env.hardware_concurrency o.nthread) o.minLen o.allow_mm
                  ++ post)
            ∧ written (tailor_map.main env o).events
                = hdLine :: (env.readIndex q).chr_length.map sqLine) := by
    intro q hq env o ho
    have hmain : tailor_map.main env o = mainFrom env o q :=
      main_eq_mainFrom (by rw [ho]; exact hq)
    rw [hmain]
    constructor
    · rw [← checkIndexIntact_false_iff]
      constructor
      · intro h
        cases hc : checkIndexIntact env q with
        | false => rfl
        | true => exact absurd h (mainFrom_status_ne_two env o q hc)
      · intro h
        simp [mainFrom, h]
    · intro hidx hfq hout
      have hev := mainFrom_events env o q hidx hfq hout
      refine ⟨⟨_, _, hev⟩, ?_⟩
      rw [hev]
      simp only [written_append, written_tailing2]
      split <;> split <;> simp [written_cons, written]
  obtain ⟨c, hc⟩ : ∃ c, p.data.getLast? = some c := by
    cases h : p.data.getLast? with
    | none => exact absurd (List.getLast?_eq_none_iff.mp h) (data_ne_nil hp)
    | some c => exact ⟨c, rfl⟩
  by_cases hdot : c = '.'
  · subst hdot
    have hn : normalizePrefix p = some p := by simp [normalizePrefix, hc]
    exact ⟨p, hn, fun _ => rfl, fun h => absurd hc h, hc, hn, huse p hn⟩
  · have hn : normalizePrefix p = some (p.push '.') := by simp [normalizePrefix, hc, hdot]
    have hlast : (p.push '.').data.getLast? = some '.' := by
      rw [String.data_push, List.getLast?_concat]
    have hn2 : normalizePrefix (p.push '.') = some (p.push '.') := by
      simp [normalizePrefix, hlast]
    refine ⟨p.push '.', hn, ?_, ?_, hlast, hn2, huse _ hn⟩
    · intro h
      rw [hc] at h
      exact absurd (Option.some.inj h) hdot
    · intro _
      exact String.ext (by simp)

/-- Witness for C8: the prefix `genome` becomes `genome.`; with the file
`genome.chrLen` missing the run exits with code 2, and with every file present
the `@SQ` lines are those of the index loaded from `genome.`. -/
theorem normalizePrefix_spec_witness :
    ∃ q, normalizePrefix "genome" = some q ∧ q = "genome." ∧ normalizePrefix q = some q
      ∧ (tailor_map.main (sampleWorld 4 ["genome.chrLen"]) (sampleOptions 1)).status
          = Status.exit 2
      ∧ written (tailor_map.main (sampleWorld 4 []) (sampleOptions 1)).events
          = hdLine :: ((sampleWorld 4 []).readIndex q).chr_length.map sqLine := by
  obtain ⟨q, h1, _, h3, _, h5, h6⟩ := normalizePrefix_spec "genome" (by decide)
  have hq : q = "genome." := (h3 (by decide)).trans (by decide)
  subst hq
  refine ⟨"genome.", h1, rfl, h5, ?_, ?_⟩
  · exact (h6 (sampleWorld 4 ["genome.chrLen"]) (sampleOptions 1) rfl).1.mpr
      ⟨"genome.chrLen", by decide, by decide⟩
  · exact ((h6 (sampleWorld 4 []) (sampleOptions 1) rfl).2 (by decide) (by decide)
      (Or.inl (by decide))).2

theorem header_threads (chr : List (String × Nat)) :
    spawned (chr.map (fun c => Event.write (sqLine c))) = []
      ∧ joined (chr.map (fun c => Event.write (sqLine c))) = []
      ∧ deleted (chr.map (fun c => Event.write (sqLine c))) = [] := by
  induction chr with
  | nil => exact ⟨rfl, rfl, rfl⟩
  | cons c chr ih =>
    obtain ⟨h1, h2, h3⟩ := ih
    simp [spawned_cons, joined_cons, deleted_cons, h1, h2, h3]

/-- The calling thread in `tailing2` starts, joins and deletes the threads
`0 .. nthread - 1`, each once. -/
theorem tailing2_threads (env : World) (prefixName fastqName : String) (nthread : Nat)
    (minLen : Int) (mm : Bool) :
    spawned (tailing2 env prefixName fastqName nthread minLen mm) = List.range nthread
      ∧ joined (tailing2 env prefixName fastqName nthread minLen mm) = List.range nthread
      ∧ deleted (tailing2 env prefixName fastqName nthread minLen mm) = List.range nthread := by
  obtain ⟨a1, a2, a3⟩ := header_threads (env.readIndex prefixName).chr_length
  obtain ⟨b1, b2, b3, _⟩ := searchBWT_tail2_events (env.readIndex prefixName) fastqName
    nthread minLen mm
  simp [tailing2, loadBWT2, spawned_append, joined_append, deleted_append, spawned_cons,
    joined_cons, deleted_cons, a1, a2, a3, b1, b2, b3]

/-- C9, counterexample: `hardware_concurrency ()` may return 0; then the thread
count is not changed, and with `-n 4` four threads are started. -/
theorem main_threads_counterexample :
    (sampleWorld 0 []).hardware_concurrency = 0
      ∧ (sampleOptions 4).nthread = 4
      ∧ spawned (tailor_map.main (sampleWorld 0 []) (sampleOptions 4)).events = [0, 1, 2, 3]
      ∧ ¬ (spawned (tailor_map.main (sampleWorld 0 []) (sampleOptions 4)).events).length
            ≤ (sampleWorld 0 []).hardware_concurrency := by
  have h : spawned (tailor_map.main (sampleWorld 0 []) (sampleOptions 4)).events
      = [0, 1, 2, 3] := by decide
  refine ⟨rfl, rfl, h, ?_⟩
  rw [h]
  decide

/-- C9, amended: in a run of `tailor_map::main` that reaches the mapping, the
count handed to `tailing2` is the requested count `n`, replaced by
`h = hardware_concurrency ()` when `h` is not 0 and `n > h`; `searchBWT_tail2`
starts one thread per count and joins and deletes each once.  So the count is
`min n h`, at most `h`, when `h` is not 0, and it is `n` itself when `h` is 0. -/
theorem main_threads (env : World) (o : Options) (p : String)
    (hp : normalizePrefix o.indexPrefix = some p)
    (hidx : checkIndexIntact env p = true)
    (hfq : env.fileExists o.inputFastq = true)
    (hout : (o.outputSAM == "stdout" || o.outputSAM == "-") = true
      ∨ env.canCreate o.outputSAM = true) :
    (∃ pre post, (tailor_map.main env o).events
        = pre ++ tailing2 env p o.inputFastq
            (clampThreads env.hardware_concurrency o.nthread) o.minLen o.allow_mm ++ post)
      ∧ spawned (tailor_map.main env o).events
          = List.range (clampThreads env.hardware_concurrency o.nthread)
      ∧ joined (tailor_map.main env o).events
          = List.range (clampThreads env.hardware_concurrency o.nthread)
      ∧ deleted (tailor_map.main env o).events
          = List.range (clampThreads env.hardware_concurrency o.nthread)
      ∧ (env.hardware_concurrency ≠ 0 →
          clampThreads env.hardware_concurrency o.nthread
              = min o.nthread env.hardware_concurrency
            ∧ clampThreads env.hardware_concurrency o.nthread ≤ env.hardware_concurrency)
      ∧ (env.hardware_concurrency = 0 →
          clampThreads env.hardware_concurrency o.nthread = o.nthread) := by
  obtain ⟨t1, t2, t3⟩ := tailing2_threads env p o.inputFastq
    (clampThreads env.hardware_concurrency o.nthread) o.minLen o.allow_mm
  have hcond : (!(o.outputSAM == "stdout" || o.outputSAM == "-") && !env.canCreate o.outputSAM)
      = false := by
    rcases hout with h | h <;> simp [h]
  have hev : (tailor_map.main env o).events
      = (if (o.outputSAM == "stdout" || o.outputSAM == "-") = true then []
          else [Event.openOutput o.outputSAM])
        ++ (if env.hardware_concurrency ≠ 0 ∧ o.nthread > env.hardware_concurrency then
              [Event.cerr (clampWarning env.hardware_concurrency o.nthread)]
            else [])
        ++ tailing2 env p o.inputFastq (clampThreads env.hardware_concurrency o.nthread)
            o.minLen o.allow_mm
        ++ (if (o.outputSAM == "stdout" || o.outputSAM == "-") = true then []
            else [Event.closeOutput]) := by
    rw [main_eq_mainFrom hp]
    unfold mainFrom
    simp only [hidx, hfq, hcond, Bool.not_true, Bool.false_eq_true, if_false]
  refine ⟨⟨_, _, hev⟩, ?_, ?_, ?_, ?_, ?_⟩
  · rw [hev]
    simp only [spawned_append, t1]
    split <;> split <;> simp [spawned_cons, spawned]
  · rw [hev]
    simp only [joined_append, t2]
    split <;> split <;> simp [joined_cons, joined]
  · rw [hev]
    simp only [deleted_append, t3]
    split <;> split <;> simp [deleted_cons, deleted]
  · intro h
    unfold clampThreads
    split <;> omega
  · intro h
    simp [clampThreads, h]

/-- Witness for C9: on a machine with 2 hardware threads, `-n 4` starts the
threads 0 and 1. -/
theorem main_threads_witness :
    spawned (tailor_map.main (sampleWorld 2 []) (sampleOptions 4)).events = [0, 1]
      ∧ clampThreads (sampleWorld 2 []).hardware_concurrency (sampleOptions 4).nthread ≤ 2 :=
  have h := main_threads (sampleWorld 2 []) (sampleOptions 4) "genome."
    (by decide) (by decide) (by decide) (Or.inl (by decide))
  ⟨h.2.1.trans (by decide), (h.2.2.2.2.1 (by decide)).2⟩

end Tailor
